import Mathlib

/-!
Verification of the REMEDI editor subsystem (src/src/editors.py) against its
specification. Tensors are shallowly embedded as nested lists of rationals:
a hidden-state vector is a list, a batch row is a list of vectors (one per
token position), and a batched layer output is a list of batch rows.
-/

namespace Remedi
/-- Hidden-state vector (the last dimension of a tensor). -/
abbrev Vec := List ℚ

/-- One batch row of a layer output: one hidden-state vector per token position. -/
abbrev Mat := List Vec

/-- A batched layer output of shape (batch, seq, hidden). -/
abbrev T3 := List Mat

/-- Elementwise sum of two vectors (torch `+` on the hidden dimension). -/
def vecAdd (u v : Vec) : Vec := List.zipWith (fun a b => a + b) u v

/-- Scalar multiple of a vector (`alpha * directions[bi]`). -/
def vecScale (a : ℚ) (v : Vec) : Vec := v.map (fun x => a * x)

/-- Sequence dimension of a layer output, i.e. `output[0].shape[1]`. Real
tensors are rectangular, so the shape is the length of the first row. -/
def shape1 (t : T3) : ℕ := (t.headD []).length

/-- Translation of the slice assignment in `apply_direction.__enter__`
(src/src/editors.py line 78):
`output[0][bi, i:j] = output[0][bi, i:j] + alpha * self.directions[bi]`.
Positions `p` with `i ≤ p < j` (clipped to the row length, as Python slices
are) receive the broadcast direction; the first argument of the recursion is
the running position index. -/
def editRowFrom (alpha : ℚ) (d : Vec) (i j : ℕ) : ℕ → Mat → Mat
  | _, [] => []
  | p, v :: vs =>
    (if i ≤ p ∧ p < j then vecAdd v (vecScale alpha d) else v)
      :: editRowFrom alpha d i j (p + 1) vs

/-- One batch row after the slice assignment, starting the position count at 0. -/
def editRow (alpha : ℚ) (d : Vec) (i j : ℕ) (m : Mat) : Mat :=
  editRowFrom alpha d i j 0 m

/-- Translation of the loop in `apply_direction.__enter__`
(src/src/editors.py lines 77-80):
`for bi, (i, j) in enumerate(self.token_ranges.tolist()): ...`.
Row `bi` is updated with its own token range and its own direction; each loop
iteration touches only row `bi`, so the sequence of in-place updates is
equivalent to this row-wise map. (On inputs where the Python loop would raise
an IndexError - more token ranges than batch rows or than directions - the
extra ranges are ignored here; all claims concern matching batch sizes.) -/
def applyDirectionsFrom (alpha : ℚ) (directions : List Vec)
    (tokenRanges : List (ℕ × ℕ)) : ℕ → T3 → T3
  | _, [] => []
  | bi, m :: ms =>
    (match tokenRanges[bi]?, directions[bi]? with
      | some r, some d => editRow alpha d r.1 r.2 m
      | _, _ => m)
      :: applyDirectionsFrom alpha directions tokenRanges (bi + 1) ms

/-- All batch rows after the loop, starting the row count at 0. -/
def applyDirections (alpha : ℚ) (directions : List Vec)
    (tokenRanges : List (ℕ × ℕ)) (t : T3) : T3 :=
  applyDirectionsFrom alpha directions tokenRanges 0 t

/-- Translation of the hook `edit_output` installed by
`apply_direction.__enter__` (src/src/editors.py lines 71-81). The layer output
is a tuple whose head is the hidden-state tensor; the remaining components
(type `α`) pass through untouched, as in `(output[0], *output[1:])`. When the
sequence dimension is 1 (an incremental decode step beyond the first prompt
pass) the output tuple is returned unchanged. -/
def edit_output {α : Type} (alpha : ℚ) (directions : List Vec)
    (tokenRanges : List (ℕ × ℕ)) (output : T3 × α) : T3 × α :=
  if shape1 output.1 = 1 then output
  else (applyDirections alpha directions tokenRanges output.1, output.2)

/-!
Embedding of `Editor.fit` (src/src/editors.py lines 361-454). Parameter
tensors are mutable cells: a heap maps addresses to values, and a tensor is
identified by its address. This level of detail is needed because
`best = self.state_dict()` stores tensors that share storage with the live
parameters (`state_dict` with the default `keep_vars=False` returns
`param.detach()`, which does not clone), so whether the final
`self.load_state_dict(best)` restores anything depends on aliasing.
-/

/-- A heap of parameter-tensor cells, one scalar value per address. The scalar
type `K` stands for the floats of the source; general theorems hold for every
linearly ordered scalar type with the operations the loop uses, and concrete
runs instantiate `K` with a computable instance. -/
abbrev Heap (K : Type) := ℕ → K

/-- The collaborators of `Editor.fit`, shallowly embedded. `editorAddrs` are
the addresses of the editor's own parameter tensors (`self.parameters()`);
`stepVals` gives the values an `optim.AdamW` step writes into its registered
parameters (gradients and moments are folded into this function); `lossOf` is
the value of `editing_loss` at the current parameters on one batch. -/
structure FitEnv (K B : Type) where
  editorAddrs : List ℕ
  trainBatches : List B
  valBatches : List B
  stepVals : Heap K → B → ℕ → K
  lossOf : Heap K → B → K

/-- An `optimizer.step()`: writes new values into exactly the parameters the
optimizer was constructed over (`optim.AdamW(self.parameters(), lr=lr)`,
src/src/editors.py line 397); every other cell is untouched. -/
def optimizerStep {K B : Type} (env : FitEnv K B) (h : Heap K) (b : B) :
    Heap K :=
  fun a => if a ∈ env.editorAddrs then env.stepVals h b a else h a

/-- One iteration of the training batch loop (src/src/editors.py lines
416-427): the loss is computed at the current parameters, then
`loss.backward(); optimizer.step()` run only when `epoch > 0`, and the batch
loss is accumulated into the running `train_loss`. The accumulator is
(heap, summed loss, optimizer steps performed so far). -/
def trainBatchStep {K B : Type} [Add K] (env : FitEnv K B) (epoch : ℕ)
    (acc : Heap K × K × ℕ) (b : B) : Heap K × K × ℕ :=
  let loss := env.lossOf acc.1 b
  if 0 < epoch then (optimizerStep env acc.1 b, acc.2.1 + loss, acc.2.2 + 1)
  else (acc.1, acc.2.1 + loss, acc.2.2)

/-- The full pass over `train_loader` for one epoch. -/
def trainEpochPass {K B : Type} [Add K] [Zero K] (env : FitEnv K B)
    (epoch : ℕ) (h : Heap K) : Heap K × K × ℕ :=
  env.trainBatches.foldl (trainBatchStep env epoch) (h, 0, 0)

/-- The validation pass (src/src/editors.py lines 430-446): mean of
`editing_loss` over `val_loader`, computed under `torch.inference_mode` so the
parameters do not change. -/
def valLossAvg {K B : Type} [Add K] [Zero K] [Div K] [NatCast K]
    (env : FitEnv K B) (h : Heap K) : K :=
  (env.valBatches.foldl (fun acc b => acc + env.lossOf h b) 0)
    / (env.valBatches.length : K)

/-- Modelled from the spec: `training_utils.EarlyStopping`
(src/utils/training_utils.py is not part of the sources). Per the spec, a
patience counter resets whenever validation loss strictly improves and
training halts when the loss has failed to improve for `patience` consecutive
epochs; `improved` records whether the last observed loss strictly improved
the best seen. -/
structure EarlyStopping (K : Type) where
  patience : ℕ
  best : Option K
  numBad : ℕ
  improved : Bool
deriving DecidableEq

/-- Modelled from the spec: a fresh stopper with nothing observed yet. -/
def EarlyStopping.start (K : Type) (patience : ℕ) : EarlyStopping K :=
  ⟨patience, none, 0, false⟩

/-- Modelled from the spec: `stopper(val_loss)`. Returns the stop decision and
the updated stopper state. -/
def EarlyStopping.observe {K : Type} [LinearOrder K] (s : EarlyStopping K)
    (loss : K) : Bool × EarlyStopping K :=
  match s.best with
  | none => (false, ⟨s.patience, some loss, 0, true⟩)
  | some b =>
    if loss < b then (false, ⟨s.patience, some loss, 0, true⟩)
    else (s.patience ≤ s.numBad + 1, ⟨s.patience, some b, s.numBad + 1, false⟩)

/-- A `state_dict`: the module's parameter tensors keyed by position. With the
default `keep_vars=False`, `nn.Module.state_dict()` returns `param.detach()`
for each parameter, and `detach` shares storage with the live tensor - so a
state dict records addresses, not copied values. -/
structure StateDict where
  tensors : List ℕ
deriving DecidableEq

/-- Translation of `self.state_dict()` for the editor module. -/
def state_dict {K B : Type} (env : FitEnv K B) : StateDict :=
  ⟨env.editorAddrs⟩

/-- Translation of `self.load_state_dict(sd)`: each saved tensor's current
value is copied into the parameter with the matching key (position). -/
def load_state_dict {K B : Type} (env : FitEnv K B) (h : Heap K)
    (sd : StateDict) : Heap K :=
  fun a =>
    match (env.editorAddrs.zip sd.tensors).lookup a with
    | some src => h src
    | none => h a

/-- Per-epoch bookkeeping emitted by the training loop: the epoch counter
value, how many optimizer steps ran in the epoch, and the epoch's mean train
and validation losses. -/
structure EpochRecord (K : Type) where
  epoch : ℕ
  optimSteps : ℕ
  trainLoss : K
  valLoss : K
deriving DecidableEq

/-- Translation of the epoch loop `for epoch in range(max_epochs + 1)`
(src/src/editors.py lines 410-451), over the list of remaining epoch indices.
Each epoch runs the train pass, averages the train loss, runs the validation
pass, consults the stopper (`if stopper(val_loss): break`), and otherwise
re-snapshots `best = self.state_dict()` when the loss improved. Returns the
final heap, the `best` state dict, and the per-epoch records. -/
def fitLoop {K B : Type} [Add K] [Zero K] [Div K] [NatCast K] [LinearOrder K]
    (env : FitEnv K B) :
    List ℕ → Heap K → EarlyStopping K → StateDict →
      Heap K × StateDict × List (EpochRecord K)
  | [], h, _, best => (h, best, [])
  | epoch :: rest, h, stopper, best =>
    let tp := trainEpochPass env epoch h
    let vl := valLossAvg env tp.1
    let ob := stopper.observe vl
    let rcd : EpochRecord K :=
      ⟨epoch, tp.2.2, tp.2.1 / (env.trainBatches.length : K), vl⟩
    if ob.1 then (tp.1, best, [rcd])
    else
      let best1 := if ob.2.improved then state_dict env else best
      let out := fitLoop env rest tp.1 ob.2 best1
      (out.1, out.2.1, rcd :: out.2.2)

/-- Translation of `Editor.fit`: initialize `best = self.state_dict()` and the
stopper, run the epoch loop, and finish with `self.load_state_dict(best)`.
Returns the final heap and the epoch records. -/
def fit {K B : Type} [Add K] [Zero K] [Div K] [NatCast K] [LinearOrder K]
    (env : FitEnv K B) (maxEpochs patience : ℕ) (h0 : Heap K) :
    Heap K × List (EpochRecord K) :=
  let out := fitLoop env (List.range (maxEpochs + 1)) h0
    (EarlyStopping.start K patience) (state_dict env)
  (load_state_dict env out.1 out.2.1, out.2.2)

/-- Translation of the base-model freezing block in `Editor.fit`
(src/src/editors.py lines 393-395): `self.mt.model.eval()` followed by
`for parameter in self.mt.model.parameters(): parameter.requires_grad_(True)`.
Input and output are the `requires_grad` flags of the base model's parameters,
in order. -/
def fitSetBaseRequiresGrad (flags : List Bool) : List Bool :=
  flags.map (fun _ => true)

/-- A concrete training configuration over integer scalars: one editor
parameter at address 0, one train batch, one val batch, each optimizer step
increments the parameter, and the loss is constant 1. -/
def c7Env : FitEnv ℤ Unit :=
  ⟨[0], [()], [()], fun h _ _ => h 0 + 1, fun _ _ => 1⟩

/-- The spec's synthetic validation-loss sequence `[5, 3, 2, 2.5, 3]`, scaled
by 2 to `[10, 6, 4, 5, 6]` so every loss is an integer (the early-stopping
logic only compares losses, so scaling preserves the scenario): the loss of
the model whose single parameter has value `n` is the `n`-th entry. -/
def c1LossTable : List ℤ := [10, 6, 4, 5, 6]

/-- A concrete training configuration realizing the spec's early-stopping
test: one editor parameter at address 0 starting at 0, one train and one val
batch, each optimizer step increments the parameter (so after epoch `e`'s
training pass the parameter equals `e`), and the loss of parameter value `n`
is `c1LossTable[n]`. -/
def c1Env : FitEnv ℤ Unit :=
  ⟨[0], [()], [()], fun h _ _ => h 0 + 1,
    fun h _ => c1LossTable.getD (h 0).toNat 6⟩

/-!
Embedding of `editing_loss` (src/src/editors.py lines 263-308). The two model
forward passes are abstracted into their log-softmax outputs: `logpsEdit` is
`log_softmax(outputs_edit.logits)` and `logpsOrig` is
`log_softmax(outputs_orig.logits)`, both of shape (batch, seq, vocab) and with
real entries.
-/

/-- A row of log-probabilities (the vocabulary dimension). -/
abbrev RVec := List ℝ

/-- One sample's log-probabilities, one row per sequence position. -/
abbrev RMat := List RVec

/-- A batched log-probability tensor of shape (batch, seq, vocab). -/
abbrev RT3 := List RMat

/-- The final sequence position of one sample, `logps[bi, -1]`. -/
def lastRow (m : RMat) : RVec := m.getLastD []

/-- Translation of the loss accumulation in `editing_loss`
(src/src/editors.py lines 294-297):
`for bi, mti in enumerate(mediated_token_ids.tolist()):`
`    loss += -logps_edit[bi, -1, mti]`.
The first argument of the recursion is the running batch index `bi`. -/
noncomputable def sumNegLogpMediated (logpsEdit : RT3) : ℕ → List ℕ → ℝ
  | _, [] => 0
  | bi, mti :: rest =>
    -((lastRow (logpsEdit.getD bi [])).getD mti 0) +
      sumNegLogpMediated logpsEdit (bi + 1) rest

/-- The base (non-KL) value of `editing_loss`: the accumulated negative
log-probabilities divided by `batch_size = mediated_token_ids.shape[0]`
(src/src/editors.py lines 298-299). -/
noncomputable def editingLossBase (logpsEdit : RT3) (ids : List ℕ) : ℝ :=
  sumNegLogpMediated logpsEdit 0 ids / (ids.length : ℝ)

/-- Translation of `nn.KLDivLoss(reduction="batchmean", log_target=True)`
applied as `kl(input, target)` with both arguments log-probabilities:
pointwise `exp(target) * (target - input)`, summed over every element and
divided by the batch size (the first dimension of `input`). -/
noncomputable def klDivLossBatchmean (input target : List RVec) : ℝ :=
  ((input.zip target).map (fun row =>
      ((row.1.zip row.2).map (fun e => Real.exp e.2 * (e.2 - e.1))).sum)).sum
    / (input.length : ℝ)

/-- Translation of `editing_loss`: the base term plus, when a KL regularizer
is configured (src/src/editors.py lines 301-306),
`lam * kl(logps_edit[arange(batch_size), -1], logps_orig[arange(batch_size), -1])`. -/
noncomputable def editing_loss (useKL : Bool) (lam : ℝ)
    (logpsEdit logpsOrig : RT3) (mediatedIds : List ℕ) : ℝ :=
  editingLossBase logpsEdit mediatedIds +
    if useKL then
      lam * klDivLossBatchmean (logpsEdit.map lastRow) (logpsOrig.map lastRow)
    else 0

/-- Written from the spec's words, for comparison with the source
translation: the KL divergence `KL(P ‖ Q) = Σ_j P_j * (log P_j - log Q_j)` of
the distribution with log-probabilities `lp` from the one with
log-probabilities `lq`. -/
noncomputable def specKL (lp lq : RVec) : ℝ :=
  ((lp.zip lq).map (fun e => Real.exp e.1 * (e.1 - e.2))).sum

/-- Written from the spec's words: `lam` times the batch mean of
`KL(first ‖ second)` at the final sequence position. -/
noncomputable def specKLRegularizer (lam : ℝ) (lpsP lpsQ : RT3) : ℝ :=
  lam * (((lpsP.map lastRow).zip (lpsQ.map lastRow)).map
      (fun r => specKL r.1 r.2)).sum / (lpsP.length : ℝ)

/-- Translation of `RandomEditor.forward` (src/src/editors.py lines 582-587):
`distribution.sample((len(attribute),))` makes `len(attribute)` i.i.d. draws
from `MultivariateNormal(self.mean, self.covariance)`; `draw k` abstracts the
k-th draw of that sampler under the current generator state. The attribute
tensor enters the computation only through `len(attribute)`. -/
def randomEditorForward (draw : ℕ → Vec) (attr : List Vec) : List Vec :=
  (List.range attr.length).map draw

theorem editRowFrom_length (alpha : ℚ) (d : Vec) (i j : ℕ) :
    ∀ (m : Mat) (p : ℕ), (editRowFrom alpha d i j p m).length = m.length := by
  intro m
  induction m with
  | nil => intro p; rfl
  | cons v vs ih => intro p; simpa [editRowFrom] using ih (p + 1)

theorem editRowFrom_getD (alpha : ℚ) (d : Vec) (i j : ℕ) :
    ∀ (m : Mat) (p k : ℕ), k < m.length →
      (editRowFrom alpha d i j p m).getD k [] =
        if i ≤ p + k ∧ p + k < j
        then vecAdd (m.getD k []) (vecScale alpha d)
        else m.getD k [] := by
  intro m
  induction m with
  | nil => intro p k hk; simp at hk
  | cons v vs ih =>
    intro p k hk
    cases k with
    | zero => simp [editRowFrom]
    | succ k =>
      have hk2 : k < vs.length := by simpa using hk
      have := ih (p + 1) k hk2
      simp only [editRowFrom, List.getD_cons_succ]
      rw [this]
      have harith : p + 1 + k = p + (k + 1) := by omega
      rw [harith]

theorem applyDirectionsFrom_length (alpha : ℚ) (dirs : List Vec)
    (ranges : List (ℕ × ℕ)) :
    ∀ (t : T3) (bi : ℕ),
      (applyDirectionsFrom alpha dirs ranges bi t).length = t.length := by
  intro t
  induction t with
  | nil => intro bi; rfl
  | cons m ms ih => intro bi; simpa [applyDirectionsFrom] using ih (bi + 1)

theorem applyDirectionsFrom_getD (alpha : ℚ) (dirs : List Vec)
    (ranges : List (ℕ × ℕ)) :
    ∀ (t : T3) (bi b : ℕ), b < t.length →
      (applyDirectionsFrom alpha dirs ranges bi t).getD b [] =
        match ranges[bi + b]?, dirs[bi + b]? with
        | some r, some d => editRow alpha d r.1 r.2 (t.getD b [])
        | _, _ => t.getD b [] := by
  intro t
  induction t with
  | nil => intro bi b hb; simp at hb
  | cons m ms ih =>
    intro bi b hb
    cases b with
    | zero => simp [applyDirectionsFrom]
    | succ b =>
      have hb2 : b < ms.length := by simpa using hb
      have := ih (bi + 1) b hb2
      simp only [applyDirectionsFrom, List.getD_cons_succ]
      rw [this]
      have harith : bi + 1 + b = bi + (b + 1) := by omega
      rw [harith]

/-- C4: for every forward pass intercepted by an active `apply_direction` hook
in which the layer output's sequence dimension equals 1 (an incremental decode
step beyond the first), the hook returns the output tuple unchanged, for all
values of alpha, directions and token ranges. -/
theorem apply_direction_noop_guard {α : Type} (alpha : ℚ) (dirs : List Vec)
    (ranges : List (ℕ × ℕ)) (output : T3 × α) (h : shape1 output.1 = 1) :
    edit_output alpha dirs ranges output = output := by
  simp [edit_output, h]

/-- Witness for C4: a concrete single-position output whose token range covers
position 0 and whose direction is nonzero is still returned unchanged. -/
theorem apply_direction_noop_guard_witness :
    shape1 [[[(1 : ℚ), 2, 3]]] = 1 ∧
      edit_output 2 [[1, 1, 1]] [(0, 1)] (([[[(1 : ℚ), 2, 3]]], (0 : ℚ))) =
        (([[[(1 : ℚ), 2, 3]]], (0 : ℚ))) :=
  ⟨by decide,
    apply_direction_noop_guard 2 [[1, 1, 1]] [(0, 1)]
      (([[[(1 : ℚ), 2, 3]]], (0 : ℚ))) (by decide)⟩

/-- C5: for a multi-token forward pass under an active `apply_direction` hook,
batch row `b` with token range `(i, j)` has positions `i ≤ p < j` replaced by
their original value plus `alpha * directions[b]`, and every other position of
row `b` is unchanged. The formula for an arbitrary row `b` mentions only row
`b`'s own range and direction, so every batch row is independent of every
other row's edit; the non-tensor components of the output tuple also pass
through unchanged. -/
theorem apply_direction_edit_locality {α : Type} (alpha : ℚ) (dirs : List Vec)
    (ranges : List (ℕ × ℕ)) (t : T3) (rest : α) (b i j p : ℕ)
    (hseq : shape1 t ≠ 1) (hb : b < t.length) (hr : ranges[b]? = some (i, j))
    (hd : b < dirs.length) (hp : p < (t.getD b []).length) :
    (edit_output alpha dirs ranges (t, rest)).2 = rest ∧
      (edit_output alpha dirs ranges (t, rest)).1.length = t.length ∧
      ((edit_output alpha dirs ranges (t, rest)).1.getD b []).length =
        (t.getD b []).length ∧
      ((edit_output alpha dirs ranges (t, rest)).1.getD b []).getD p [] =
        (if i ≤ p ∧ p < j
         then vecAdd ((t.getD b []).getD p []) (vecScale alpha (dirs.getD b []))
         else (t.getD b []).getD p []) := by
  have hdir : dirs[b]? = some (dirs.getD b []) := by
    rw [List.getD_eq_getElem?_getD, List.getElem?_eq_getElem hd]
    simp
  have hrow := applyDirectionsFrom_getD alpha dirs ranges t 0 b hb
  simp only [Nat.zero_add, hr, hdir] at hrow
  have hedit : edit_output alpha dirs ranges (t, rest) =
      (applyDirectionsFrom alpha dirs ranges 0 t, rest) := by
    simp [edit_output, hseq, applyDirections]
  refine ⟨by rw [hedit], ?_, ?_, ?_⟩
  · rw [hedit]
    exact applyDirectionsFrom_length alpha dirs ranges t 0
  · rw [hedit]
    simp only [hrow]
    simp [editRow, editRowFrom_length]
  · rw [hedit]
    simp only [hrow]
    simpa [editRow] using editRowFrom_getD alpha (dirs.getD b []) i j
      (t.getD b []) 0 p hp

/-- Witness for C5: batch of two rows, the edited position of row 0 moves by
`alpha * directions[0]` and all other positions stay put. -/
theorem apply_direction_edit_locality_witness :
    shape1 [[[(1 : ℚ)], [2], [3]], [[4], [5], [6]]] ≠ 1 ∧
      (0 : ℕ) < 2 ∧
      ([((1 : ℕ), (2 : ℕ)), (0, 0)])[0]? = some (1, 2) ∧
      (0 : ℕ) < 2 ∧
      (1 : ℕ) < 3 ∧
      ((edit_output 2 [[10], [20]] [(1, 2), (0, 0)]
            (([[[(1 : ℚ)], [2], [3]], [[4], [5], [6]]], (0 : ℚ)))).1.getD 0 []).getD 1 [] =
        (if 1 ≤ 1 ∧ 1 < 2
         then vecAdd (([[(1 : ℚ)], [2], [3]] : Mat).getD 1 [])
            (vecScale 2 (([[(10 : ℚ)], [20]] : List Vec).getD 0 []))
         else ([[(1 : ℚ)], [2], [3]] : Mat).getD 1 []) :=
  ⟨by decide, by decide, by decide, by decide, by decide,
    (apply_direction_edit_locality 2 [[10], [20]] [(1, 2), (0, 0)]
        [[[(1 : ℚ)], [2], [3]], [[4], [5], [6]]] (0 : ℚ) 0 1 2 1
        (by decide) (by decide) (by decide) (by decide) (by decide)).2.2.2⟩

/-- C10: the hook adds one per-sample offset uniformly: there is a single
vector, namely `alpha * directions[b]`, that every position of row `b` inside
its token range receives additively. Directions are per-sample, not
per-position. -/
theorem apply_direction_uniform_offset {α : Type} (alpha : ℚ) (dirs : List Vec)
    (ranges : List (ℕ × ℕ)) (t : T3) (rest : α) (b i j : ℕ)
    (hseq : shape1 t ≠ 1) (hb : b < t.length) (hr : ranges[b]? = some (i, j))
    (hd : b < dirs.length) :
    ∃ off : Vec, off = vecScale alpha (dirs.getD b []) ∧
      ∀ p : ℕ, p < (t.getD b []).length → i ≤ p → p < j →
        ((edit_output alpha dirs ranges (t, rest)).1.getD b []).getD p [] =
          vecAdd ((t.getD b []).getD p []) off := by
  refine ⟨vecScale alpha (dirs.getD b []), rfl, ?_⟩
  intro p hp hip hpj
  have h := (apply_direction_edit_locality alpha dirs ranges t rest b i j p
    hseq hb hr hd hp).2.2.2
  rw [h, if_pos ⟨hip, hpj⟩]

/-- Witness for C10: two in-range positions of the same row receive the same
offset vector. -/
theorem apply_direction_uniform_offset_witness :
    shape1 [[[(1 : ℚ)], [2], [3]]] ≠ 1 ∧
      (0 : ℕ) < 1 ∧
      ([((0 : ℕ), (2 : ℕ))])[0]? = some (0, 2) ∧
      (0 : ℕ) < 1 ∧
      (∃ off : Vec, off = vecScale 3 (([[(10 : ℚ)]] : List Vec).getD 0 []) ∧
        ∀ p : ℕ, p < ([[(1 : ℚ)], [2], [3]] : Mat).length → 0 ≤ p → p < 2 →
          ((edit_output 3 [[10]] [(0, 2)]
              (([[[(1 : ℚ)], [2], [3]]], (0 : ℚ)))).1.getD 0 []).getD p [] =
            vecAdd (([[(1 : ℚ)], [2], [3]] : Mat).getD p [])
              off) :=
  ⟨by decide, by decide, by decide, by decide,
    apply_direction_uniform_offset 3 [[10]] [(0, 2)] [[[(1 : ℚ)], [2], [3]]]
      (0 : ℚ) 0 0 2 (by decide) (by decide) (by decide) (by decide)⟩

theorem trainFold_fst {K B : Type} [Add K] (env : FitEnv K B) (e : ℕ)
    (a : ℕ) (ha : a ∉ env.editorAddrs) :
    ∀ (bs : List B) (acc : Heap K × K × ℕ),
      (bs.foldl (trainBatchStep env e) acc).1 a = acc.1 a := by
  intro bs
  induction bs with
  | nil => intro acc; rfl
  | cons b rest ih =>
    intro acc
    rw [List.foldl_cons, ih]
    by_cases he : 0 < e
    · simp [trainBatchStep, he, optimizerStep, ha]
    · simp [trainBatchStep, he]

theorem trainEpochPass_fst {K B : Type} [Add K] [Zero K] (env : FitEnv K B)
    (e : ℕ) (h : Heap K) (a : ℕ) (ha : a ∉ env.editorAddrs) :
    (trainEpochPass env e h).1 a = h a :=
  trainFold_fst env e a ha env.trainBatches (h, 0, 0)

theorem fitLoop_fst {K B : Type} [Add K] [Zero K] [Div K] [NatCast K]
    [LinearOrder K] (env : FitEnv K B) (a : ℕ) (ha : a ∉ env.editorAddrs) :
    ∀ (l : List ℕ) (h : Heap K) (s : EarlyStopping K) (bd : StateDict),
      (fitLoop env l h s bd).1 a = h a := by
  intro l
  induction l with
  | nil => intro h s bd; rfl
  | cons epoch rest ih =>
    intro h s bd
    rw [fitLoop]
    by_cases hstop :
        (s.observe (valLossAvg env (trainEpochPass env epoch h).1)).1 = true
    · simp only [hstop, if_true]
      exact trainEpochPass_fst env epoch h a ha
    · simp only [hstop, if_false, Bool.false_eq_true]
      rw [ih]
      exact trainEpochPass_fst env epoch h a ha

theorem lookup_zip_left_none (a : ℕ) :
    ∀ (l1 l2 : List ℕ), a ∉ l1 → (l1.zip l2).lookup a = none := by
  intro l1
  induction l1 with
  | nil => intro l2 _; rfl
  | cons x xs ih =>
    intro l2 hnot
    cases l2 with
    | nil => rfl
    | cons y ys =>
      have hx : a ≠ x := fun hax => hnot (hax ▸ List.mem_cons_self x xs)
      have hbeq : (a == x) = false := by simpa using hx
      simp only [List.zip_cons_cons, List.lookup, hbeq]
      exact ih ys (fun hmem => hnot (List.mem_cons_of_mem x hmem))

theorem load_state_dict_fst {K B : Type} (env : FitEnv K B) (h : Heap K)
    (sd : StateDict) (a : ℕ) (ha : a ∉ env.editorAddrs) :
    load_state_dict env h sd a = h a := by
  unfold load_state_dict
  rw [lookup_zip_left_none a env.editorAddrs sd.tensors ha]

/-- C9: `Editor.fit` builds its optimizer over the editor's own parameters
only (`optim.AdamW(self.parameters(), lr=lr)`), so no optimizer step - and no
other part of `fit` - ever writes to a cell outside the editor's parameters:
the base model's weights are unchanged when `fit` returns, whatever their
`requires_grad` flags are. -/
theorem fit_optimizer_never_touches_base {K B : Type} [Add K] [Zero K]
    [Div K] [NatCast K] [LinearOrder K] (env : FitEnv K B)
    (maxEpochs patience : ℕ) (h0 : Heap K) (a : ℕ)
    (ha : a ∉ env.editorAddrs) :
    (fit env maxEpochs patience h0).1 a = h0 a := by
  simp only [fit]
  rw [load_state_dict_fst env _ _ a ha]
  exact fitLoop_fst env a ha (List.range (maxEpochs + 1)) h0
    (EarlyStopping.start K patience) (state_dict env)

theorem trainFold_steps {K B : Type} [Add K] (env : FitEnv K B) (e : ℕ) :
    ∀ (bs : List B) (acc : Heap K × K × ℕ),
      (bs.foldl (trainBatchStep env e) acc).2.2 =
        acc.2.2 + (if 0 < e then bs.length else 0) := by
  intro bs
  induction bs with
  | nil => intro acc; simp
  | cons b rest ih =>
    intro acc
    rw [List.foldl_cons, ih]
    by_cases he : 0 < e
    · simp only [trainBatchStep, he, if_true]
      simp only [List.length_cons]
      omega
    · simp [trainBatchStep, he]

theorem trainEpochPass_steps {K B : Type} [Add K] [Zero K]
    (env : FitEnv K B) (e : ℕ) (h : Heap K) :
    (trainEpochPass env e h).2.2 =
      if e = 0 then 0 else env.trainBatches.length := by
  unfold trainEpochPass
  rw [trainFold_steps]
  cases e with
  | zero => simp
  | succ n => simp

theorem trainEpochPass_epoch_zero_heap {K B : Type} [Add K] [Zero K]
    (env : FitEnv K B) (h : Heap K) :
    (trainEpochPass env 0 h).1 = h := by
  funext a
  unfold trainEpochPass
  have : ∀ (bs : List B) (acc : Heap K × K × ℕ),
      (bs.foldl (trainBatchStep env 0) acc).1 = acc.1 := by
    intro bs
    induction bs with
    | nil => intro acc; rfl
    | cons b rest ih =>
      intro acc
      rw [List.foldl_cons, ih]
      simp [trainBatchStep]
  rw [this]

theorem fitLoop_records {K B : Type} [Add K] [Zero K] [Div K] [NatCast K]
    [LinearOrder K] (env : FitEnv K B) :
    ∀ (l : List ℕ) (h : Heap K) (s : EarlyStopping K) (bd : StateDict),
      ((fitLoop env l h s bd).2.2.map EpochRecord.epoch) <+: l ∧
      (∀ r ∈ (fitLoop env l h s bd).2.2,
        r.optimSteps = if r.epoch = 0 then 0 else env.trainBatches.length) ∧
      (l ≠ [] → (fitLoop env l h s bd).2.2 ≠ []) := by
  intro l
  induction l with
  | nil =>
    intro h s bd
    exact ⟨List.nil_prefix, by intro r hr; simp [fitLoop] at hr,
      fun hne => absurd rfl hne⟩
  | cons epoch rest ih =>
    intro h s bd
    rw [fitLoop]
    by_cases hstop :
        (s.observe (valLossAvg env (trainEpochPass env epoch h).1)).1 = true
    · simp only [hstop, if_true]
      refine ⟨?_, ?_, fun _ => by simp⟩
      · exact ⟨rest, rfl⟩
      · intro r hr
        simp only [List.mem_singleton] at hr
        subst hr
        exact trainEpochPass_steps env epoch h
    · simp only [hstop, if_false, Bool.false_eq_true]
      obtain ⟨hpre, hsteps, hne⟩ := ih (trainEpochPass env epoch h).1
        (s.observe (valLossAvg env (trainEpochPass env epoch h).1)).2
        (if (s.observe (valLossAvg env (trainEpochPass env epoch h).1)).2.improved
          then state_dict env else bd)
      refine ⟨?_, ?_, fun _ => by simp⟩
      · obtain ⟨tail, htail⟩ := hpre
        exact ⟨tail, by simp [htail]⟩
      · intro r hr
        simp only [List.map_cons, List.mem_cons] at hr ⊢
        rcases hr with hr | hr
        · subst hr
          exact trainEpochPass_steps env epoch h
        · exact hsteps r hr

/-- C7: in `Editor.fit` the epoch counter runs over `range(max_epochs + 1)`,
i.e. the epochs actually executed are `0, 1, 2, ...` up to at most
`max_epochs`; epoch 0 computes train and validation losses but performs zero
optimizer steps and leaves every parameter cell unchanged, while every epoch
`>= 1` that runs performs one backward/optimizer step per training batch. -/
theorem fit_epoch_zero_dry_run {K B : Type} [Add K] [Zero K] [Div K]
    [NatCast K] [LinearOrder K] (env : FitEnv K B)
    (maxEpochs patience : ℕ) (h0 : Heap K) :
    ((fit env maxEpochs patience h0).2.map EpochRecord.epoch =
      List.range (fit env maxEpochs patience h0).2.length) ∧
    (fit env maxEpochs patience h0).2.length ≤ maxEpochs + 1 ∧
    (fit env maxEpochs patience h0).2 ≠ [] ∧
    (∀ r ∈ (fit env maxEpochs patience h0).2,
      r.epoch ≤ maxEpochs ∧
      r.optimSteps = if r.epoch = 0 then 0 else env.trainBatches.length) ∧
    (∀ h : Heap K, (trainEpochPass env 0 h).1 = h) := by
  obtain ⟨hpre, hsteps, hne⟩ := fitLoop_records env
    (List.range (maxEpochs + 1)) h0 (EarlyStopping.start K patience)
    (state_dict env)
  have hrecs : (fit env maxEpochs patience h0).2 =
      (fitLoop env (List.range (maxEpochs + 1)) h0
        (EarlyStopping.start K patience) (state_dict env)).2.2 := rfl
  rw [hrecs]
  set recs := (fitLoop env (List.range (maxEpochs + 1)) h0
    (EarlyStopping.start K patience) (state_dict env)).2.2 with hdef
  have hlen : (recs.map EpochRecord.epoch).length ≤ maxEpochs + 1 := by
    simpa using hpre.length_le
  refine ⟨?_, by simpa using hlen, ?_, ?_, fun h => trainEpochPass_epoch_zero_heap env h⟩
  · have := List.prefix_iff_eq_take.mp hpre
    rw [this, List.take_range]
    have : min (recs.map EpochRecord.epoch).length (maxEpochs + 1) =
        (recs.map EpochRecord.epoch).length := by omega
    rw [this]
    simp
  · exact hne (by simp)
  · intro r hr
    refine ⟨?_, hsteps r hr⟩
    have hmem : r.epoch ∈ List.range (maxEpochs + 1) :=
      hpre.subset (List.mem_map_of_mem EpochRecord.epoch hr)
    have := List.mem_range.mp hmem
    omega

/-- C1 (code-bug exhibit): with the validation-loss sequence
`[10, 6, 4, 5, 6]` (the spec's `[5, 3, 2, 2.5, 3]` scaled by 2) and
patience 2, training does halt after epoch 4 as specified (the recorded
validation losses are exactly that sequence), but `fit` returns the
parameters of the halting epoch (value 4, validation loss 6), not the
snapshot of the best epoch (value 2, validation loss 4):
`best = self.state_dict()` stores tensors aliasing the live parameters, so
the final `self.load_state_dict(best)` copies the current parameters onto
themselves. -/
theorem fit_does_not_restore_best_checkpoint :
    (fit c1Env 10 2 (fun _ => 0)).2.map EpochRecord.valLoss =
      [10, 6, 4, 5, 6] ∧
    (fit c1Env 10 2 (fun _ => 0)).1 0 = 4 ∧
    valLossAvg c1Env (fit c1Env 10 2 (fun _ => 0)).1 = 6 ∧
    (trainEpochPass c1Env 2 (fun _ => 1)).1 0 = 2 ∧
    valLossAvg c1Env (trainEpochPass c1Env 2 (fun _ => 1)).1 = 4 := by
  decide

/-- C2 (code-bug exhibit): the freezing block of `Editor.fit` sets
`requires_grad_(True)` on every base-model parameter - here three parameters
whose flags start disabled all end up enabled - where the spec requires
`requires_grad` to be disabled for the wrapped base model. -/
theorem fit_enables_base_requires_grad :
    fitSetBaseRequiresGrad [false, false, false] = [true, true, true] := by
  decide

/-- Witness for C7 at the concrete configuration `c7Env`. -/
theorem fit_epoch_zero_dry_run_witness :
    ((fit c7Env 3 2 (fun _ => 0)).2.map EpochRecord.epoch =
      List.range (fit c7Env 3 2 (fun _ => 0)).2.length) ∧
    (fit c7Env 3 2 (fun _ => 0)).2.length ≤ 3 + 1 ∧
    (fit c7Env 3 2 (fun _ => 0)).2 ≠ [] ∧
    (∀ r ∈ (fit c7Env 3 2 (fun _ => 0)).2,
      r.epoch ≤ 3 ∧
      r.optimSteps = if r.epoch = 0 then 0 else c7Env.trainBatches.length) ∧
    (∀ h : Heap ℤ, (trainEpochPass c7Env 0 h).1 = h) :=
  fit_epoch_zero_dry_run c7Env 3 2 (fun _ => 0)

theorem map_zip_comm {α β γ : Type} (f : α → β → γ) :
    ∀ (l1 : List α) (l2 : List β),
      (l1.zip l2).map (fun p => f p.1 p.2) =
        (l2.zip l1).map (fun p => f p.2 p.1) := by
  intro l1
  induction l1 with
  | nil => intro l2; cases l2 <;> rfl
  | cons x xs ih =>
    intro l2
    cases l2 with
    | nil => rfl
    | cons y ys => simp only [List.zip_cons_cons, List.map_cons, ih ys]

theorem klDivLossBatchmean_eq_specKL (input target : List RVec) :
    klDivLossBatchmean input target =
      ((target.zip input).map (fun r => specKL r.1 r.2)).sum
        / (input.length : ℝ) := by
  unfold klDivLossBatchmean specKL
  rw [map_zip_comm
    (fun i t => ((i.zip t).map (fun e => Real.exp e.2 * (e.2 - e.1))).sum)
    input target]
  have hrow : ∀ p : RVec × RVec,
      ((p.2.zip p.1).map (fun e => Real.exp e.2 * (e.2 - e.1))).sum =
        ((p.1.zip p.2).map (fun e => Real.exp e.1 * (e.1 - e.2))).sum := by
    intro p
    rw [map_zip_comm (fun a b => Real.exp b * (b - a)) p.2 p.1]
  simp only [hrow]

/-- C3 counterexample: one sample whose edited final-position distribution is
(1/4, 3/4) and whose original distribution is (1/2, 1/2), with lam = 1. The
KL term `editing_loss` adds is `KL(original ‖ edited)`, which differs here
from the claimed `lam * KL(edited ‖ original)` because
`8 * log 2 ≠ 5 * log 3`. -/
theorem editing_loss_kl_not_spec_direction :
    editing_loss true 1
        [[[Real.log (1 / 4), Real.log (3 / 4)]]]
        [[[Real.log (1 / 2), Real.log (1 / 2)]]] [0] ≠
      editing_loss false 1
          [[[Real.log (1 / 4), Real.log (3 / 4)]]]
          [[[Real.log (1 / 2), Real.log (1 / 2)]]] [0] +
        specKLRegularizer 1
          [[[Real.log (1 / 4), Real.log (3 / 4)]]]
          [[[Real.log (1 / 2), Real.log (1 / 2)]]] := by
  have e14 : Real.exp (Real.log (1 / 4)) = 1 / 4 := Real.exp_log (by norm_num)
  have e34 : Real.exp (Real.log (3 / 4)) = 3 / 4 := Real.exp_log (by norm_num)
  have e12 : Real.exp (Real.log (1 / 2)) = 1 / 2 := Real.exp_log (by norm_num)
  have l14 : Real.log (1 / 4) = -(2 * Real.log 2) := by
    rw [one_div, Real.log_inv, show (4 : ℝ) = 2 ^ (2 : ℕ) by norm_num,
      Real.log_pow]
    norm_num
  have l12 : Real.log (1 / 2) = -Real.log 2 := by
    rw [one_div, Real.log_inv]
  have l34 : Real.log (3 / 4) = Real.log 3 - 2 * Real.log 2 := by
    rw [Real.log_div (by norm_num) (by norm_num),
      show (4 : ℝ) = 2 ^ (2 : ℕ) by norm_num, Real.log_pow]
    norm_num
  have h85 : 5 * Real.log 3 < 8 * Real.log 2 := by
    have h1 : Real.log 243 < Real.log 256 :=
      Real.log_lt_log (by norm_num) (by norm_num)
    have h2 : Real.log 243 = 5 * Real.log 3 := by
      rw [show (243 : ℝ) = 3 ^ (5 : ℕ) by norm_num, Real.log_pow]
      norm_num
    have h3 : Real.log 256 = 8 * Real.log 2 := by
      rw [show (256 : ℝ) = 2 ^ (8 : ℕ) by norm_num, Real.log_pow]
      norm_num
    linarith
  simp only [editing_loss, editingLossBase, sumNegLogpMediated, lastRow,
    specKLRegularizer, specKL, klDivLossBatchmean, List.map_cons,
    List.map_nil, List.zip_cons_cons, List.zip_nil_right, List.sum_cons,
    List.sum_nil, List.getD_cons_zero, List.getLastD_cons, List.getLastD_nil,
    List.length_cons, List.length_nil, if_true, Nat.cast_one, Nat.cast_zero]
  rw [e14, e34, e12, l14, l12, l34]
  intro heq
  norm_num at heq
  linarith

/-- C3 amended: when a KL regularizer is configured, `editing_loss` adds
`lam` times the batch-mean KL divergence of the ORIGINAL next-token
distribution from the EDITED one - `lam * KL(original ‖ edited)` - at the
final sequence position (PyTorch's `KLDivLoss(input, target)` computes
`KL(target ‖ input)`, and the code passes the edited log-probabilities as
`input` and the original ones as `target`). -/
theorem editing_loss_kl_direction (lam : ℝ) (logpsEdit logpsOrig : RT3)
    (ids : List ℕ) (hlen : logpsEdit.length = logpsOrig.length) :
    editing_loss true lam logpsEdit logpsOrig ids =
      editing_loss false lam logpsEdit logpsOrig ids +
        specKLRegularizer lam logpsOrig logpsEdit := by
  unfold editing_loss specKLRegularizer
  rw [klDivLossBatchmean_eq_specKL]
  simp only [if_true, Bool.false_eq_true, if_false, add_zero]
  rw [List.length_map, hlen, mul_div_assoc]

/-- Witness for the amended C3 theorem at a concrete batch. -/
theorem editing_loss_kl_direction_witness :
    ([[[(-1 : ℝ)]]] : RT3).length = ([[[(-2 : ℝ)]]] : RT3).length ∧
      editing_loss true 1 [[[(-1 : ℝ)]]] [[[(-2 : ℝ)]]] [0] =
        editing_loss false 1 [[[(-1 : ℝ)]]] [[[(-2 : ℝ)]]] [0] +
          specKLRegularizer 1 [[[(-2 : ℝ)]]] [[[(-1 : ℝ)]]] :=
  ⟨rfl, editing_loss_kl_direction 1 [[[(-1 : ℝ)]]] [[[(-2 : ℝ)]]] [0] rfl⟩

theorem sumNegLogpMediated_shift (m : RMat) (logps : RT3) :
    ∀ (ids : List ℕ) (bi : ℕ),
      sumNegLogpMediated (m :: logps) (bi + 1) ids =
        sumNegLogpMediated logps bi ids := by
  intro ids
  induction ids with
  | nil => intro bi; rfl
  | cons mti rest ih =>
    intro bi
    simp only [sumNegLogpMediated, List.getD_cons_succ]
    rw [ih (bi + 1)]

theorem sumNegLogpMediated_eq_sum :
    ∀ (logps : RT3) (ids : List ℕ), logps.length = ids.length →
      sumNegLogpMediated logps 0 ids =
        (((logps.map lastRow).zip ids).map
            (fun p => -(p.1.getD p.2 0))).sum := by
  intro logps
  induction logps with
  | nil =>
    intro ids h
    cases ids with
    | nil => rfl
    | cons mti rest => simp at h
  | cons m ms ih =>
    intro ids h
    cases ids with
    | nil => simp at h
    | cons mti rest =>
      simp only [sumNegLogpMediated, List.getD_cons_zero, List.map_cons,
        List.zip_cons_cons, List.sum_cons]
      rw [sumNegLogpMediated_shift m ms rest 0, ih rest (by simpa using h)]

/-- C6: the base (non-KL) value of `editing_loss` is the mean, over the
batch, of the negative log-probability the edited model assigns to each
sample's mediated target token at the final sequence position. -/
theorem editing_loss_base_mean_neg_logp (logpsEdit : RT3) (ids : List ℕ)
    (hlen : logpsEdit.length = ids.length) :
    editingLossBase logpsEdit ids =
      (((logpsEdit.map lastRow).zip ids).map
          (fun p => -(p.1.getD p.2 0))).sum / (ids.length : ℝ) := by
  unfold editingLossBase
  rw [sumNegLogpMediated_eq_sum logpsEdit ids hlen]

/-- Witness for C6: a two-sample batch with explicit log-probabilities. -/
theorem editing_loss_base_mean_neg_logp_witness :
    ([[[(-1 : ℝ), -2]], [[-3, -4]]] : RT3).length = [1, 0].length ∧
      editingLossBase [[[(-1 : ℝ), -2]], [[-3, -4]]] [1, 0] =
        ((([[[(-1 : ℝ), -2]], [[-3, -4]]] : RT3).map lastRow |>.zip
            [1, 0]).map (fun p => -(p.1.getD p.2 0))).sum
          / (([1, 0] : List ℕ).length : ℝ) :=
  ⟨rfl, editing_loss_base_mean_neg_logp [[[(-1 : ℝ), -2]], [[-3, -4]]]
    [1, 0] rfl⟩

/-- C8: `RandomEditor.forward` returns one draw per input row and its output
does not depend on the values of the attribute input, only on its number of
rows: two attribute tensors of the same batch size under the same generator
state yield identical directions. -/
theorem randomEditor_ignores_attribute_values (draw : ℕ → Vec)
    (a1 a2 : List Vec) (hlen : a1.length = a2.length) :
    randomEditorForward draw a1 = randomEditorForward draw a2 ∧
      (randomEditorForward draw a1).length = a1.length := by
  constructor
  · unfold randomEditorForward
    rw [hlen]
  · unfold randomEditorForward
    simp

/-- Witness for C9: heap address 1 is not an editor parameter address of
`c1Env`, and a full run of `fit` leaves its value untouched. -/
theorem fit_optimizer_never_touches_base_witness :
    (1 : ℕ) ∉ c1Env.editorAddrs ∧
      (fit c1Env 10 2 (fun _ => 0)).1 1 = 0 :=
  ⟨by decide,
    fit_optimizer_never_touches_base c1Env 10 2 (fun _ => 0) 1 (by decide)⟩

/-- Witness for C8: two attribute batches with different values and different
hidden sizes but equal batch size produce the same directions. -/
theorem randomEditor_ignores_attribute_values_witness :
    ([[(1 : ℚ)], [2]] : List Vec).length =
      ([[(5 : ℚ), 6], [7, 8]] : List Vec).length ∧
      randomEditorForward (fun k => [(k : ℚ)]) [[(1 : ℚ)], [2]] =
          randomEditorForward (fun k => [(k : ℚ)]) [[(5 : ℚ), 6], [7, 8]] ∧
        (randomEditorForward (fun k => [(k : ℚ)])
            [[(1 : ℚ)], [2]]).length = ([[(1 : ℚ)], [2]] : List Vec).length :=
  ⟨rfl, randomEditor_ignores_attribute_values (fun k => [(k : ℚ)])
    [[(1 : ℚ)], [2]] [[(5 : ℚ), 6], [7, 8]] rfl⟩

end Remedi
